/-
  Verification of the stringslib buffered-string library (strings.c).

  A Buffer (struct string_s) is a uint32 capacity, a uint32 length and a
  flexible byte array of cap + 1 bytes.  We embed the data region as a
  `List Nat` of bytes; machine arithmetic on uint32 fields is Nat
  arithmetic with an explicit mod 2^32 at the places the C code can wrap.
  malloc/realloc are assumed to succeed (allocation failure is out of
  scope); the bytes malloc leaves uninitialized are represented by an
  explicit `junk` parameter on the operations that can leave such bytes
  visible.  NULL-pointer arguments are not representable: every `Buf` is a
  present buffer, and `Option Buf` results model the NULL returns of the
  guard checks.  A NULL result of an inner allocation inside an otherwise
  guarded path is likewise out of scope.
-/
import Mathlib

set_option maxRecDepth 4000

namespace Stringslib

/-- 2^32, the modulus of the uint32 fields `cap` and `len`. -/
def U32MOD : Nat := 4294967296

/-- STR_ERROR = UINT32_MAX, the not-found / invalid sentinel (strings_functions.h). -/
def STR_ERROR : Nat := 4294967295

/-- C `isspace` on a byte (ASCII/C locale): space and \t \n \v \f \r. -/
def isspace (c : Nat) : Bool := c == 32 || (9 ≤ c && c ≤ 13)

/-- struct string_s (strings_buf.h): uint32 cap, uint32 len, flexible byte
array `data`.  `data` is the whole data region of the allocation, cap + 1
bytes when well-formed. -/
structure Buf where
  cap : Nat
  len : Nat
  data : List Nat
  deriving Repr, DecidableEq

/-- The logical content of a buffer: the first `len` bytes of the data region. -/
def content (b : Buf) : List Nat := b.data.take b.len

/-- Well-formedness of the representation: the two documented invariants
(`len ≤ cap`, terminator byte 0 at index `len`) plus the allocation size
(the data region holds exactly cap + 1 bytes). -/
def WF (b : Buf) : Prop :=
  b.len ≤ b.cap ∧ b.data[b.len]? = some 0 ∧ b.data.length = b.cap + 1

/-- The two representation invariants stated by the specification. -/
def ReprInv (b : Buf) : Prop := b.len ≤ b.cap ∧ b.data[b.len]? = some 0

/-- The content contains no NUL byte (contents built from C strings and
printf output are NUL-free). -/
def NulFree (b : Buf) : Prop := ∀ x ∈ content b, x ≠ 0

instance (b : Buf) : Decidable (WF b) :=
  inferInstanceAs (Decidable (_ ∧ _ ∧ _))

instance (b : Buf) : Decidable (ReprInv b) :=
  inferInstanceAs (Decidable (_ ∧ _))

instance (b : Buf) : Decidable (NulFree b) :=
  inferInstanceAs (Decidable (∀ x ∈ content b, x ≠ 0))

/-- `readBytes l off cnt` : the `cnt` bytes of the region `l` starting at
offset `off` (the source side of a memcpy).  All in-spec uses stay inside
the region, where it agrees with `(l.drop off).take cnt`. -/
def readBytes (l : List Nat) (off cnt : Nat) : List Nat :=
  (List.range cnt).map (fun i => l.getD (off + i) 0)

/-- The data region produced by `string_new` (strings.c:66): byte 0 at
index 0 and at index cap, uninitialized (junk) bytes in between. -/
def newData (junk cap : Nat) : List Nat :=
  (List.range (cap + 1)).map (fun i => if i = 0 ∨ i = cap then 0 else junk)

/-- string_new (strings.c:66): allocate a buffer of capacity cap, length 0. -/
def string_new (junk cap : Nat) : Buf := ⟨cap, 0, newData junk cap⟩

/-- string_new_c (strings.c:86): build a buffer from a C string `s`
(modelled as its NUL-free byte list); fails if strlen > UINT32_MAX - 1.
The memcpy overwrites every junk byte, leaving `s ++ [0]`. -/
def string_new_c (s : List Nat) : Option Buf :=
  if s.length > U32MOD - 2 then none
  else some ⟨s.length, s.length, s ++ [0]⟩

/-- string_resize (strings.c:126), success path of realloc: keeps the
first newcap+1 bytes of the region (realloc preserves the common prefix),
junk beyond; on truncation writes the terminator at newcap and sets len. -/
def string_resize (junk : Nat) (buf : Buf) (newcap : Nat) : Buf :=
  if newcap = buf.cap then buf
  else
    let d := buf.data.take (newcap + 1) ++
             List.replicate (newcap + 1 - buf.data.length) junk
    if newcap < buf.len then ⟨newcap, newcap, d.set newcap 0⟩
    else ⟨newcap, buf.len, d⟩

/-- string_reset (strings.c:221): len = 0, data[0] = 0. -/
def string_reset (buf : Buf) : Buf := ⟨buf.cap, 0, buf.data.set 0 0⟩

/-- string_append (strings.c:641).  `text` is the byte sequence the
vsnprintf formatter would produce for the format arguments (the same
deterministic output is sized first and then written).  Returns the new
buffer state and the C return value.  On success vsnprintf writes
text ++ [0] at offset len and the rest of the region is untouched. -/
def string_append (buf : Buf) (text : List Nat) : Buf × Nat :=
  let spc := buf.cap - buf.len
  if spc = 0 then (buf, 0)
  else if text.length > spc then (buf, 0)
  else (⟨buf.cap, buf.len + text.length,
         buf.data.take buf.len ++ text ++ [0] ++
           buf.data.drop (buf.len + text.length + 1)⟩,
        text.length)

/-- string_write (strings.c:691): like append but from offset 0. -/
def string_write (buf : Buf) (text : List Nat) : Buf × Nat :=
  if buf.cap = 0 then (buf, 0)
  else if text.length > buf.cap then (buf, 0)
  else (⟨buf.cap, text.length,
         text ++ [0] ++ buf.data.drop (text.length + 1)⟩,
        text.length)

/-- string_left (strings.c:269): NULL if pos > len; else a buffer of
capacity pos+1 holding bytes 0..pos of the source region plus an explicit
terminator at index pos+1. -/
def string_left (buf : Buf) (pos : Nat) : Option Buf :=
  if pos > buf.len then none
  else some ⟨pos + 1, pos + 1, readBytes buf.data 0 (pos + 1) ++ [0]⟩

/-- string_right (strings.c:289): NULL if pos > len; else bytes
pos..len of the source region (the source terminator included). -/
def string_right (buf : Buf) (pos : Nat) : Option Buf :=
  if pos > buf.len then none
  else some ⟨buf.len - pos, buf.len - pos,
             readBytes buf.data pos (buf.len - pos + 1)⟩

/-- string_mid (strings.c:309): NULL if a bound exceeds len or
left > right; else capacity right-left but length right-left+1, copying
right-left+1 bytes from offset left-1 (a 1-based convention).  For
left = 0 the C code reads the byte before the data region (undefined
behavior); the model's Nat subtraction reads offset 0 there, so theorems
about the content are stated for 1 ≤ left only. -/
def string_mid (buf : Buf) (left right : Nat) : Option Buf :=
  if right > buf.len ∨ left > buf.len ∨ left > right then none
  else some ⟨right - left, right - left + 1,
             readBytes buf.data (left - 1) (right - left + 1)⟩

/-- string_concat (strings.c:328): a's content then b's content and
terminator, capacity exactly the combined length. -/
def string_concat (a b : Buf) : Buf :=
  ⟨a.len + b.len, a.len + b.len,
   readBytes a.data 0 a.len ++ readBytes b.data 0 (b.len + 1)⟩

/-- string_insert (strings.c:349): NULL if pos > len; else prefix,
fragment, and the rest of the source including its terminator. -/
def string_insert (buf str : Buf) (pos : Nat) : Option Buf :=
  if pos > buf.len then none
  else some ⟨buf.len + str.len, buf.len + str.len,
             readBytes buf.data 0 pos ++ readBytes str.data 0 str.len ++
               readBytes buf.data pos (buf.len - pos + 1)⟩

/-- string_delete (strings.c:372): NULL if a position exceeds len or
pos1 > pos2; else capacity len-pos2+pos1, copying the prefix before pos1
and the bytes after pos2; the stored length is len-pos2+pos1-1 computed in
uint32 arithmetic (it wraps to UINT32_MAX when pos1 = 0 and pos2 = len).
The final 0 is the terminator string_new wrote at index cap. -/
def string_delete (buf : Buf) (pos1 pos2 : Nat) : Option Buf :=
  if pos1 > buf.len ∨ pos2 > buf.len ∨ pos1 > pos2 then none
  else some ⟨buf.len - pos2 + pos1,
             (buf.len - pos2 + pos1 + (U32MOD - 1)) % U32MOD,
             readBytes buf.data 0 pos1 ++
               readBytes buf.data (pos2 + 1) (buf.len - pos2) ++ [0]⟩

/-- The C string a byte region denotes: its longest NUL-free prefix. -/
def cString (l : List Nat) : List Nat := l.takeWhile (fun c => c != 0)

/-- Offset of the first occurrence of the needle inside the haystack, the
scan C strstr performs (check offset 0, else advance one byte). -/
def strstrIdx (nee : List Nat) : List Nat → Option Nat
  | [] => if ([] : List Nat).take nee.length = nee then some 0 else none
  | a :: t =>
      if (a :: t).take nee.length = nee then some 0
      else (strstrIdx nee t).map (· + 1)

/-- string_find (strings.c:479): STR_ERROR if the needle is longer than
the haystack or pos > len; else strstr on the C strings starting at
offset pos, returning the offset from the start of the data. -/
def string_find (buf search : Buf) (pos : Nat) : Nat :=
  if search.len > buf.len ∨ pos > buf.len then STR_ERROR
  else
    match strstrIdx (cString search.data) (cString (buf.data.drop pos)) with
    | some i => pos + i
    | none => STR_ERROR

/-- string_find_c (strings.c:499): note the guard returns `false` (0),
not STR_ERROR; a failed string_new_c makes the inner find return
STR_ERROR through its NULL guard. -/
def string_find_c (buf : Buf) (csearch : List Nat) (pos : Nat) : Nat :=
  if pos > buf.len then 0
  else
    match string_new_c csearch with
    | none => STR_ERROR
    | some se => string_find buf se pos

/-- string_split (strings.c:817): the pair (returned left String, value
stored through the right out-parameter; `none` in the second component
when the function returns before assigning it).  The left part is
string_left at pos - 1 computed in uint32 arithmetic: it wraps to
UINT32_MAX when the separator is found at offset 0. -/
def string_split (buf : Buf) (search : List Nat) : Option Buf × Option Buf :=
  let pos := string_find_c buf search 0
  if pos = STR_ERROR then (none, none)
  else (string_left buf ((pos + (U32MOD - 1)) % U32MOD),
        string_right buf (pos + search.length))

/-- The final value of pos1 in string_trim (strings.c:619): the number of
leading whitespace bytes of the content (the scan stops at len). -/
def ltrimPos (buf : Buf) : Nat :=
  ((buf.data.take buf.len).takeWhile (fun c => isspace c)).length

/-- The final value of pos2 in string_trim (strings.c:621): the scan runs
downward from len - 1 while the byte is whitespace.  Its guard
`pos2 >= 0` is always true for the unsigned pos2, so when no non-space
byte exists below len (all-space or empty content) pos2 wraps past 0 and
the code reads buf->data[UINT32_MAX], out of bounds: `none` marks that
undefined behavior. -/
def rtrimPos (buf : Buf) : Option Nat :=
  (List.range buf.len).reverse.find? (fun i => !(isspace (buf.data.getD i 0)))

/-- string_trim (strings.c:613): copies the bytes pos1..pos2 into a fresh
buffer of capacity pos1 + pos2 + 1; the bytes between the copy and the
terminator string_new wrote at index cap keep the junk malloc left there. -/
def string_trim (junk : Nat) (buf : Buf) : Option Buf :=
  match rtrimPos buf with
  | none => none
  | some pos2 =>
      some ⟨ltrimPos buf + pos2 + 1, pos2 - ltrimPos buf + 1,
            readBytes buf.data (ltrimPos buf) (pos2 - ltrimPos buf + 1) ++
              List.replicate ((ltrimPos buf + pos2 + 1) - (pos2 - ltrimPos buf + 1))
                junk ++
              [0]⟩

/-! ### Concrete buffers used as test fixtures -/

/-- string_new_c("es un test") — the fixture of test.c. -/
def esUnTest : Buf :=
  ⟨10, 10, [101, 115, 32, 117, 110, 32, 116, 101, 115, 116, 0]⟩

/-- string_new_c("ab"). -/
def bufAB : Buf := ⟨2, 2, [97, 98, 0]⟩

/-- string_new_c("abc"). -/
def bufABC : Buf := ⟨3, 3, [97, 98, 99, 0]⟩

/-- string_new_c("-a"). -/
def dashA : Buf := ⟨2, 2, [45, 97, 0]⟩

/-- string_new_c("   ") — all-whitespace content. -/
def spaceBuf : Buf := ⟨3, 3, [32, 32, 32, 0]⟩

/-- string_new_c("") — empty content. -/
def emptyBuf : Buf := ⟨0, 0, [0]⟩

/-- string_new_c(" a ") — content with whitespace on both sides. -/
def spacedA : Buf := ⟨3, 3, [32, 97, 32, 0]⟩

/-- string_left(string_new_c(""), 0): a buffer whose single content byte
is the NUL byte — the library itself produces buffers with NUL content. -/
def nulNeedle : Buf := ⟨1, 1, [0, 0]⟩

/-- string_new_c("un") — the needle of the test.c find/replace fixtures. -/
def unBuf : Buf := ⟨2, 2, [117, 110, 0]⟩

/-- string_new_c("a-b"). -/
def aDashB : Buf := ⟨3, 3, [97, 45, 98, 0]⟩

/-! ### Generic list helpers -/

theorem readBytes_length (l : List Nat) (off cnt : Nat) :
    (readBytes l off cnt).length = cnt := by
  simp [readBytes]

theorem readBytes_getElem? (l : List Nat) (off cnt i : Nat) (h : i < cnt) :
    (readBytes l off cnt)[i]? = some (l.getD (off + i) 0) := by
  simp [readBytes, List.getElem?_range h]

theorem readBytes_succ (l : List Nat) (off k : Nat) :
    readBytes l off (k + 1) = l.getD off 0 :: readBytes l (off + 1) k := by
  unfold readBytes
  rw [List.range_succ_eq_map, List.map_cons, List.map_map]
  refine congrArg₂ _ (by simp) (List.map_congr_left ?_)
  intro i _
  show l.getD (off + (i + 1)) 0 = l.getD (off + 1 + i) 0
  have hidx : off + (i + 1) = off + 1 + i := by omega
  rw [hidx]

theorem readBytes_eq (l : List Nat) (off cnt : Nat) (h : off + cnt ≤ l.length) :
    readBytes l off cnt = (l.drop off).take cnt := by
  induction cnt generalizing off with
  | zero => simp [readBytes]
  | succ k ih =>
      have hlt : off < l.length := by omega
      rw [readBytes_succ, ih (off + 1) (by omega), List.drop_eq_getElem_cons hlt,
        List.take_succ_cons]
      congr 1
      simp [List.getD_eq_getElem?_getD, List.getElem?_eq_some_iff.mpr ⟨hlt, rfl⟩]

theorem getD_take (l : List Nat) (n i : Nat) (h : i < n) :
    (l.take n).getD i 0 = l.getD i 0 := by
  simp [List.getD_eq_getElem?_getD, List.getElem?_take_of_lt h]

theorem getD_append_left (l r : List Nat) (i : Nat) (h : i < l.length) :
    (l ++ r).getD i 0 = l.getD i 0 := by
  simp [List.getD_eq_getElem?_getD, List.getElem?_append, h]

theorem takeWhile_getD_true (p : Nat → Bool) :
    ∀ (l : List Nat) (i : Nat), i < (l.takeWhile p).length → p (l.getD i 0) = true := by
  intro l
  induction l with
  | nil => intro i hi; simp at hi
  | cons a t ih =>
      intro i hi
      by_cases hpa : p a
      · rw [List.takeWhile_cons_of_pos hpa] at hi
        cases i with
        | zero => simpa using hpa
        | succ i2 => simpa using ih i2 (by simpa using hi)
      · rw [List.takeWhile_cons_of_neg hpa] at hi
        simp at hi

theorem takeWhile_getD_false (p : Nat → Bool) :
    ∀ l : List Nat, (l.takeWhile p).length < l.length →
      p (l.getD (l.takeWhile p).length 0) = false := by
  intro l
  induction l with
  | nil => intro h; simp at h
  | cons a t ih =>
      intro h
      by_cases hpa : p a
      · rw [List.takeWhile_cons_of_pos hpa] at h ⊢
        simpa using ih (by simpa using h)
      · rw [List.takeWhile_cons_of_neg hpa]
        simpa using hpa

theorem takeWhile_append_zero (l r : List Nat) (h : ∀ x ∈ l, x ≠ 0) :
    (l ++ 0 :: r).takeWhile (fun c => c != 0) = l := by
  rw [List.takeWhile_append_of_pos (by intro a ha; simpa using h a ha)]
  simp

/-! ### Structure of well-formed buffers -/

theorem content_mk (c n : Nat) (l : List Nat) :
    content ⟨c, n, l⟩ = l.take n := rfl

theorem len_lt_data_length (b : Buf) (h : WF b) : b.len < b.data.length := by
  obtain ⟨h1, -, h3⟩ := h
  omega

theorem content_length (b : Buf) (h : WF b) : (content b).length = b.len := by
  have := len_lt_data_length b h
  simp [content, List.length_take]
  omega

theorem data_getD_len (b : Buf) (h : WF b) : b.data.getD b.len 0 = 0 := by
  simp [List.getD_eq_getElem?_getD, h.2.1]

theorem data_eq (b : Buf) (h : WF b) :
    b.data = content b ++ 0 :: b.data.drop (b.len + 1) := by
  have hlt := len_lt_data_length b h
  have h0 : b.data[b.len] = 0 := by
    obtain ⟨hl, he⟩ := List.getElem?_eq_some_iff.mp h.2.1
    exact he
  calc b.data = b.data.take b.len ++ b.data.drop b.len :=
        (List.take_append_drop _ _).symm
    _ = content b ++ 0 :: b.data.drop (b.len + 1) := by
        rw [List.drop_eq_getElem_cons hlt, h0]; rfl

theorem cString_drop (b : Buf) (hWF : WF b) (hNF : NulFree b) (pos : Nat)
    (hpos : pos ≤ b.len) :
    cString (b.data.drop pos) = (content b).drop pos := by
  conv_lhs => rw [data_eq b hWF]
  rw [cString, List.drop_append_of_le_length (by rw [content_length b hWF]; exact hpos)]
  exact takeWhile_append_zero _ _ fun x hx => hNF x (List.mem_of_mem_drop hx)

theorem cString_eq (b : Buf) (hWF : WF b) (hNF : NulFree b) :
    cString b.data = content b := by
  have := cString_drop b hWF hNF 0 (Nat.zero_le _)
  simpa using this

/-! ### strstr and string_find characterization -/

/-- The needle matches the haystack at offset i. -/
def matchesAt (nee hay : List Nat) (i : Nat) : Prop :=
  (hay.drop i).take nee.length = nee

theorem strstrIdx_some (nee : List Nat) :
    ∀ (hay : List Nat) (i : Nat), strstrIdx nee hay = some i →
      i ≤ hay.length ∧ matchesAt nee hay i ∧ ∀ j < i, ¬ matchesAt nee hay j := by
  intro hay
  induction hay with
  | nil =>
      intro i h
      by_cases hc : ([] : List Nat).take nee.length = nee
      · rw [strstrIdx, if_pos hc] at h
        obtain rfl : 0 = i := Option.some.inj h
        exact ⟨Nat.zero_le _, by simpa [matchesAt] using hc, by omega⟩
      · rw [strstrIdx, if_neg hc] at h
        exact absurd h (by simp)
  | cons a t ih =>
      intro i h
      by_cases hc : (a :: t).take nee.length = nee
      · rw [strstrIdx, if_pos hc] at h
        obtain rfl : 0 = i := Option.some.inj h
        exact ⟨Nat.zero_le _, by simpa [matchesAt] using hc, by omega⟩
      · rw [strstrIdx, if_neg hc] at h
        obtain ⟨i2, hi2, rfl⟩ := Option.map_eq_some'.mp h
        obtain ⟨hb, hm, hmin⟩ := ih i2 hi2
        refine ⟨by simpa using Nat.succ_le_succ hb, by simpa [matchesAt] using hm, ?_⟩
        intro j hj
        cases j with
        | zero => simpa [matchesAt] using hc
        | succ j2 =>
            intro hmj
            exact hmin j2 (by omega) (by simpa [matchesAt] using hmj)

theorem strstrIdx_none (nee : List Nat) :
    ∀ hay : List Nat, strstrIdx nee hay = none → ∀ i, ¬ matchesAt nee hay i := by
  intro hay
  induction hay with
  | nil =>
      intro h i
      by_cases hc : ([] : List Nat).take nee.length = nee
      · rw [strstrIdx, if_pos hc] at h
        exact absurd h (by simp)
      · intro hmi
        exact hc (by simpa [matchesAt] using hmi)
  | cons a t ih =>
      intro h i
      by_cases hc : (a :: t).take nee.length = nee
      · rw [strstrIdx, if_pos hc] at h
        exact absurd h (by simp)
      · rw [strstrIdx, if_neg hc] at h
        have ht : strstrIdx nee t = none := by
          cases hrec : strstrIdx nee t with
          | none => rfl
          | some v => rw [hrec] at h; exact absurd h (by simp)
        cases i with
        | zero => intro hmi; exact hc (by simpa [matchesAt] using hmi)
        | succ i2 =>
            intro hmi
            exact ih ht i2 (by simpa [matchesAt] using hmi)

/-- The needle's full content occurs as a contiguous substring of buf's
content at offset o. -/
def occursAt (buf search : Buf) (o : Nat) : Prop :=
  ((content buf).drop o).take search.len = content search

instance (buf search : Buf) (o : Nat) : Decidable (occursAt buf search o) :=
  inferInstanceAs (Decidable (_ = _))

theorem find_spec (buf search : Buf) (pos : Nat)
    (hb : WF buf) (hs : WF search) (hnb : NulFree buf) (hns : NulFree search)
    (hsl : search.len ≤ buf.len) (hpl : pos ≤ buf.len) :
    (string_find buf search pos = STR_ERROR ∧
      ∀ o, pos ≤ o → ¬ occursAt buf search o) ∨
    (pos ≤ string_find buf search pos ∧ string_find buf search pos ≤ buf.len ∧
      occursAt buf search (string_find buf search pos) ∧
      ∀ o, pos ≤ o → o < string_find buf search pos → ¬ occursAt buf search o) := by
  have hnee : cString search.data = content search := cString_eq search hs hns
  have hhay : cString (buf.data.drop pos) = (content buf).drop pos :=
    cString_drop buf hb hnb pos hpl
  have hneelen : (content search).length = search.len := content_length search hs
  have hhaylen : ((content buf).drop pos).length = buf.len - pos := by
    rw [List.length_drop, content_length buf hb]
  have hmatch : ∀ i, matchesAt (cString search.data) (cString (buf.data.drop pos)) i ↔
      occursAt buf search (pos + i) := by
    intro i
    unfold matchesAt occursAt
    rw [hnee, hhay, List.drop_drop, hneelen]
  cases hss : strstrIdx (cString search.data) (cString (buf.data.drop pos)) with
  | none =>
      have hfind : string_find buf search pos = STR_ERROR := by
        rw [string_find, if_neg (by omega), hss]
      left
      refine ⟨hfind, ?_⟩
      intro o ho hocc
      exact strstrIdx_none _ _ hss (o - pos)
        ((hmatch (o - pos)).mpr (by simpa [Nat.add_sub_cancel' ho] using hocc))
  | some i =>
      have hfind : string_find buf search pos = pos + i := by
        rw [string_find, if_neg (by omega), hss]
      right
      obtain ⟨hbound, hm, hmin⟩ := strstrIdx_some _ _ _ hss
      rw [hhay, List.length_drop, content_length buf hb] at hbound
      rw [hfind]
      refine ⟨by omega, by omega, (hmatch i).mp hm, ?_⟩
      intro o ho hlt hocc
      exact hmin (o - pos) (by omega)
        ((hmatch (o - pos)).mpr (by simpa [Nat.add_sub_cancel' ho] using hocc))

/-! ### Specifications of the substring operations -/

theorem left_none_iff (buf : Buf) (pos : Nat) :
    string_left buf pos = none ↔ pos > buf.len := by
  rw [string_left]
  split <;> simp_all

theorem left_eq (buf : Buf) (pos : Nat) (h : WF buf) (hp : pos ≤ buf.len) :
    string_left buf pos =
      some ⟨pos + 1, pos + 1, buf.data.take (pos + 1) ++ [0]⟩ := by
  rw [string_left, if_neg (by omega)]
  have hle : 0 + (pos + 1) ≤ buf.data.length := by
    have := len_lt_data_length buf h
    omega
  rw [readBytes_eq _ _ _ hle]
  simp

theorem right_eq (buf : Buf) (pos : Nat) (h : WF buf) (hp : pos ≤ buf.len) :
    string_right buf pos =
      some ⟨buf.len - pos, buf.len - pos,
            (buf.data.drop pos).take (buf.len - pos + 1)⟩ := by
  rw [string_right, if_neg (by omega)]
  have hle : pos + (buf.len - pos + 1) ≤ buf.data.length := by
    have := len_lt_data_length buf h
    omega
  rw [readBytes_eq _ _ _ hle]

theorem right_none_iff (buf : Buf) (pos : Nat) :
    string_right buf pos = none ↔ pos > buf.len := by
  rw [string_right]
  split <;> simp_all

theorem left_content (buf : Buf) (pos : Nat) (h : WF buf) (hp : pos ≤ buf.len) :
    (string_left buf pos).map content = some (buf.data.take (pos + 1)) := by
  rw [left_eq buf pos h hp, Option.map_some', content_mk]
  have hlen : (buf.data.take (pos + 1)).length = pos + 1 := by
    have := len_lt_data_length buf h
    rw [List.length_take]
    omega
  rw [List.take_append_of_le_length (by omega), List.take_take]
  simp

theorem right_content (buf : Buf) (pos : Nat) (h : WF buf) (hp : pos ≤ buf.len) :
    (string_right buf pos).map content = some ((content buf).drop pos) := by
  rw [right_eq buf pos h hp, Option.map_some', content_mk]
  rw [List.take_take, Nat.min_def, if_pos (by omega)]
  rw [content, List.drop_take]

theorem mid_none_iff (buf : Buf) (l r : Nat) :
    string_mid buf l r = none ↔ (r > buf.len ∨ l > buf.len ∨ l > r) := by
  rw [string_mid]
  split <;> simp_all

theorem mid_eq (buf : Buf) (l r : Nat) (h : WF buf) (h1 : 1 ≤ l) (hlr : l ≤ r)
    (hr : r ≤ buf.len) :
    string_mid buf l r =
      some ⟨r - l, r - l + 1, (buf.data.drop (l - 1)).take (r - l + 1)⟩ := by
  rw [string_mid, if_neg (by omega)]
  have := len_lt_data_length buf h
  rw [readBytes_eq _ _ _ (by omega)]

theorem mid_content (buf : Buf) (l r : Nat) (h : WF buf) (h1 : 1 ≤ l) (hlr : l ≤ r)
    (hr : r ≤ buf.len) :
    (string_mid buf l r).map content =
      some (((content buf).drop (l - 1)).take (r - l + 1)) := by
  rw [mid_eq buf l r h h1 hlr hr, Option.map_some', content_mk]
  have hrhs : ((content buf).drop (l - 1)).take (r - l + 1) =
      (buf.data.drop (l - 1)).take (r - l + 1) := by
    rw [content, List.drop_take, List.take_take, Nat.min_def, if_pos (by omega)]
  rw [hrhs, List.take_take]
  simp

theorem delete_none_iff (buf : Buf) (p1 p2 : Nat) :
    string_delete buf p1 p2 = none ↔ (p1 > buf.len ∨ p2 > buf.len ∨ p1 > p2) := by
  rw [string_delete]
  split <;> simp_all

theorem delete_eq (buf : Buf) (p1 p2 : Nat) (h : WF buf) (hcap : buf.len < U32MOD)
    (h12 : p1 ≤ p2) (h2 : p2 < buf.len) :
    string_delete buf p1 p2 =
      some ⟨buf.len - p2 + p1, buf.len - p2 + p1 - 1,
            buf.data.take p1 ++ (buf.data.drop (p2 + 1)).take (buf.len - p2) ++ [0]⟩ := by
  rw [string_delete, if_neg (by omega)]
  have hd := len_lt_data_length buf h
  have hlen : (buf.len - p2 + p1 + (U32MOD - 1)) % U32MOD = buf.len - p2 + p1 - 1 := by
    have hx1 : 1 ≤ buf.len - p2 + p1 := by omega
    have hx2 : buf.len - p2 + p1 < U32MOD := by omega
    rw [U32MOD] at hx2 ⊢
    omega
  rw [hlen, readBytes_eq _ 0 p1 (by omega), readBytes_eq _ (p2 + 1) (buf.len - p2) (by omega)]
  rw [List.drop_zero]

theorem delete_content (buf : Buf) (p1 p2 : Nat) (h : WF buf) (hcap : buf.len < U32MOD)
    (h12 : p1 ≤ p2) (h2 : p2 < buf.len) :
    (string_delete buf p1 p2).map content =
      some ((content buf).take p1 ++ (content buf).drop (p2 + 1)) := by
  rw [delete_eq buf p1 p2 h hcap h12 h2, Option.map_some', content_mk]
  have hd := len_lt_data_length buf h
  have hA : (buf.data.take p1).length = p1 := by
    rw [List.length_take]; omega
  have hB : ((buf.data.drop (p2 + 1)).take (buf.len - p2)).length = buf.len - p2 := by
    rw [List.length_take, List.length_drop]; omega
  have hleft : (content buf).take p1 = buf.data.take p1 := by
    rw [content, List.take_take, Nat.min_def, if_pos (by omega)]
  have hright : (content buf).drop (p2 + 1) =
      (buf.data.drop (p2 + 1)).take (buf.len - p2 + p1 - 1 - p1) := by
    rw [content, List.drop_take]
    congr 1
    omega
  rw [List.append_assoc, List.take_append_eq_append_take, hA,
    List.take_append_of_le_length (by rw [hB]; omega),
    List.take_of_length_le (by rw [hA]; omega),
    List.take_take, Nat.min_def, if_pos (by omega), hleft, hright]

/-! ### Trim scan facts -/

theorem readBytes_getD (l : List Nat) (off cnt i : Nat) (h : i < cnt) :
    (readBytes l off cnt).getD i 0 = l.getD (off + i) 0 := by
  simp [List.getD_eq_getElem?_getD, readBytes_getElem? l off cnt i h]

theorem rtrimPos_none_iff (buf : Buf) :
    rtrimPos buf = none ↔ ∀ i < buf.len, isspace (buf.data.getD i 0) = true := by
  simp [rtrimPos, List.find?_eq_none, List.mem_range]

theorem rtrimPos_some (buf : Buf) (p2 : Nat) (h : rtrimPos buf = some p2) :
    p2 < buf.len ∧ isspace (buf.data.getD p2 0) = false := by
  have hmem := List.mem_of_find?_eq_some h
  have hp := List.find?_some h
  refine ⟨?_, by simpa using hp⟩
  rw [List.mem_reverse, List.mem_range] at hmem
  exact hmem

theorem ltrimPos_le (buf : Buf) (p2 : Nat) (h2 : rtrimPos buf = some p2) :
    ltrimPos buf ≤ p2 := by
  by_contra hlt
  push_neg at hlt
  obtain ⟨hp2len, hns⟩ := rtrimPos_some buf p2 h2
  have hsp := takeWhile_getD_true (fun c => isspace c) (buf.data.take buf.len) p2 hlt
  rw [getD_take _ _ _ hp2len] at hsp
  simp only [hns] at hsp
  exact absurd hsp (by simp)

theorem ltrimPos_not_space (buf : Buf) (h : WF buf) (hlt : ltrimPos buf < buf.len) :
    isspace (buf.data.getD (ltrimPos buf) 0) = false := by
  have hd := len_lt_data_length buf h
  have hlen : (buf.data.take buf.len).length = buf.len := by
    rw [List.length_take]; omega
  have h3 := takeWhile_getD_false (fun c => isspace c) (buf.data.take buf.len)
    (by rw [hlen]; exact hlt)
  have h4 : (buf.data.take buf.len).getD (ltrimPos buf) 0 =
      buf.data.getD (ltrimPos buf) 0 := getD_take _ _ _ hlt
  calc isspace (buf.data.getD (ltrimPos buf) 0)
      = isspace ((buf.data.take buf.len).getD (ltrimPos buf) 0) := by rw [h4]
    _ = false := h3

theorem trim_eq (junk : Nat) (buf : Buf) (p2 : Nat) (h2 : rtrimPos buf = some p2) :
    string_trim junk buf =
      some ⟨ltrimPos buf + p2 + 1, p2 - ltrimPos buf + 1,
            readBytes buf.data (ltrimPos buf) (p2 - ltrimPos buf + 1) ++
              List.replicate ((ltrimPos buf + p2 + 1) - (p2 - ltrimPos buf + 1)) junk ++
              [0]⟩ := by
  rw [string_trim, h2]

theorem trim_none_iff (junk : Nat) (buf : Buf) :
    string_trim junk buf = none ↔ rtrimPos buf = none := by
  rw [string_trim]
  cases h : rtrimPos buf <;> simp

theorem trim_content (junk : Nat) (buf : Buf) (p2 : Nat) (h2 : rtrimPos buf = some p2) :
    (string_trim junk buf).map content =
      some (readBytes buf.data (ltrimPos buf) (p2 - ltrimPos buf + 1)) := by
  rw [trim_eq junk buf p2 h2, Option.map_some', content_mk]
  rw [List.append_assoc, List.take_append_of_le_length (by rw [readBytes_length]),
    List.take_of_length_le (by rw [readBytes_length])]

/-! ### Invariant preservation of the individual operations -/

theorem getElem?_term (A rest : List Nat) (n : Nat) (h : A.length = n) :
    (A ++ 0 :: rest)[n]? = some 0 := by
  subst h
  rw [List.getElem?_append_right (le_refl _)]
  simp

theorem wf_mk (c n : Nat) (l : List Nat) (h1 : n ≤ c) (h2 : l[n]? = some 0)
    (h3 : l.length = c + 1) : WF ⟨c, n, l⟩ := ⟨h1, h2, h3⟩

theorem wf_new (junk cap : Nat) : WF (string_new junk cap) := by
  refine ⟨Nat.zero_le _, ?_, by simp [string_new, newData]⟩
  simp only [string_new, newData]
  rw [List.getElem?_map, List.getElem?_range (by omega : 0 < cap + 1)]
  simp

theorem wf_new_c (s : List Nat) (b : Buf) (h : string_new_c s = some b) : WF b := by
  rw [string_new_c] at h
  split at h
  · exact absurd h (by simp)
  · obtain rfl := Option.some.inj h
    refine ⟨le_refl _, ?_, by simp⟩
    exact getElem?_term s [] s.length rfl

theorem wf_resize (junk : Nat) (buf : Buf) (newcap : Nat) (h : WF buf) :
    WF (string_resize junk buf newcap) := by
  obtain ⟨h1, h2, h3⟩ := h
  simp only [string_resize]
  split
  · exact ⟨h1, h2, h3⟩
  next hc =>
    split
    next htr =>
      refine wf_mk _ _ _ (le_refl _) ?_ ?_
      · exact List.getElem?_set_self (by simp [List.length_take]; omega)
      · simp [List.length_take]
        omega
    next htr =>
      push_neg at htr
      refine wf_mk _ _ _ (by omega) ?_ ?_
      · rw [List.getElem?_append, if_pos (by simp [List.length_take]; omega),
          List.getElem?_take_of_lt (by omega)]
        exact h2
      · simp [List.length_take]
        omega

theorem wf_append (buf : Buf) (text : List Nat) (h : WF buf) :
    WF (string_append buf text).1 := by
  obtain ⟨h1, h2, h3⟩ := h
  simp only [string_append]
  split
  · exact ⟨h1, h2, h3⟩
  split
  · exact ⟨h1, h2, h3⟩
  next hspc hfit =>
    push_neg at hfit
    refine wf_mk _ _ _ (by omega) ?_ ?_
    · have hshape : buf.data.take buf.len ++ text ++ [0] ++
          buf.data.drop (buf.len + text.length + 1) =
          (buf.data.take buf.len ++ text) ++
            0 :: buf.data.drop (buf.len + text.length + 1) := by
        simp
      rw [hshape]
      exact getElem?_term _ _ _ (by simp [List.length_take]; omega)
    · simp [List.length_take]
      omega

theorem wf_write (buf : Buf) (text : List Nat) (h : WF buf) :
    WF (string_write buf text).1 := by
  obtain ⟨h1, h2, h3⟩ := h
  simp only [string_write]
  split
  · exact ⟨h1, h2, h3⟩
  split
  · exact ⟨h1, h2, h3⟩
  next hcap hfit =>
    push_neg at hfit
    refine wf_mk _ _ _ (by omega) ?_ ?_
    · have hshape : text ++ [0] ++ buf.data.drop (text.length + 1) =
          text ++ 0 :: buf.data.drop (text.length + 1) := by simp
      rw [hshape]
      exact getElem?_term _ _ _ rfl
    · simp
      omega

theorem wf_reset (buf : Buf) (h : WF buf) : WF (string_reset buf) := by
  obtain ⟨h1, h2, h3⟩ := h
  simp only [string_reset]
  refine wf_mk _ _ _ (Nat.zero_le _) ?_ (by simpa using h3)
  exact List.getElem?_set_self (by omega)

theorem wf_left (buf : Buf) (pos : Nat) (b : Buf) (hw : WF buf)
    (h : string_left buf pos = some b) : WF b := by
  have hp : pos ≤ buf.len := by
    by_contra hh
    push_neg at hh
    rw [(left_none_iff buf pos).mpr hh] at h
    exact absurd h (by simp)
  have hd := len_lt_data_length buf hw
  rw [left_eq buf pos hw hp] at h
  obtain rfl := Option.some.inj h
  refine wf_mk _ _ _ (le_refl _) ?_ ?_
  · exact getElem?_term _ _ _ (by rw [List.length_take]; omega)
  · simp [List.length_take]
    omega

theorem wf_right (buf : Buf) (pos : Nat) (b : Buf) (hw : WF buf)
    (h : string_right buf pos = some b) : WF b := by
  have hp : pos ≤ buf.len := by
    by_contra hh
    push_neg at hh
    rw [(right_none_iff buf pos).mpr hh] at h
    exact absurd h (by simp)
  have hd := len_lt_data_length buf hw
  rw [right_eq buf pos hw hp] at h
  obtain rfl := Option.some.inj h
  refine wf_mk _ _ _ (le_refl _) ?_ ?_
  · rw [List.getElem?_take_of_lt (by omega), List.getElem?_drop,
      show pos + (buf.len - pos) = buf.len by omega]
    exact hw.2.1
  · simp [List.length_take, List.length_drop]
    omega

theorem wf_concat (a b : Buf) (hb : WF b) : WF (string_concat a b) := by
  simp only [string_concat]
  refine wf_mk _ _ _ (le_refl _) ?_ (by simp [readBytes_length]; omega)
  show (readBytes a.data 0 a.len ++ readBytes b.data 0 (b.len + 1))[a.len + b.len]? = some 0
  rw [List.getElem?_append_right (by rw [readBytes_length]; omega),
    readBytes_length,
    show a.len + b.len - a.len = b.len by omega,
    readBytes_getElem? _ _ _ _ (by omega)]
  rw [Nat.zero_add, data_getD_len b hb]

theorem wf_insert (buf str : Buf) (pos : Nat) (b : Buf) (hw : WF buf)
    (h : string_insert buf str pos = some b) : WF b := by
  rw [string_insert] at h
  by_cases hp : pos > buf.len
  · rw [if_pos hp] at h
    exact absurd h (by simp)
  · push_neg at hp
    rw [if_neg (by omega)] at h
    obtain rfl := Option.some.inj h
    refine wf_mk _ _ _ (le_refl _) ?_ ?_
    · rw [List.append_assoc]
      rw [List.getElem?_append_right (by rw [readBytes_length]; omega)]
      rw [List.getElem?_append_right (by rw [readBytes_length, readBytes_length]; omega)]
      rw [readBytes_length, readBytes_length,
        readBytes_getElem? _ _ _ _ (by omega)]
      rw [show pos + (buf.len + str.len - pos - str.len) = buf.len by omega,
        data_getD_len buf hw]
    · simp [readBytes_length]
      omega

theorem wf_delete (buf : Buf) (p1 p2 : Nat) (b : Buf) (hw : WF buf)
    (hcap : buf.len < U32MOD) (h2 : p2 < buf.len)
    (h : string_delete buf p1 p2 = some b) : WF b := by
  have h12 : p1 ≤ p2 := by
    by_contra hh
    push_neg at hh
    rw [(delete_none_iff buf p1 p2).mpr (by omega)] at h
    exact absurd h (by simp)
  have hd := len_lt_data_length buf hw
  rw [delete_eq buf p1 p2 hw hcap h12 h2] at h
  obtain rfl := Option.some.inj h
  refine wf_mk _ _ _ (by omega) ?_ ?_
  · rw [List.getElem?_append,
      if_pos (by simp [List.length_take, List.length_drop]; omega),
      List.getElem?_append_right (by rw [List.length_take]; omega),
      List.getElem?_take_of_lt (by rw [List.length_take]; omega),
      List.getElem?_drop,
      show p2 + 1 + (buf.len - p2 + p1 - 1 - (buf.data.take p1).length) = buf.len by
        rw [List.length_take]; omega]
    exact hw.2.1
  · simp [List.length_take, List.length_drop]
    omega

theorem wf_trim (junk : Nat) (buf : Buf) (hw : WF buf)
    (hhead : isspace (buf.data.getD 0 0) = false) (b : Buf)
    (ht : string_trim junk buf = some b) : WF b := by
  cases h2 : rtrimPos buf with
  | none =>
      rw [string_trim, h2] at ht
      exact absurd ht (by simp)
  | some p2 =>
      rw [trim_eq junk buf p2 h2] at ht
      obtain rfl := Option.some.inj ht
      obtain ⟨hp2, -⟩ := rtrimPos_some buf p2 h2
      have hp1 : ltrimPos buf = 0 := by
        by_contra hne
        have hpos : 0 < ltrimPos buf := Nat.pos_of_ne_zero hne
        have hsp := takeWhile_getD_true (fun c => isspace c) (buf.data.take buf.len) 0 hpos
        rw [getD_take _ _ _ (by omega)] at hsp
        simp only [hhead] at hsp
        exact absurd hsp (by simp)
      rw [hp1]
      refine wf_mk _ _ _ (by omega) ?_ ?_
      · rw [show 0 + p2 + 1 - (p2 - 0 + 1) = 0 by omega, List.replicate_zero,
          List.append_nil]
        exact getElem?_term _ _ _ (by rw [readBytes_length])
      · simp [readBytes_length]

theorem mid_not_repr (buf : Buf) (l r : Nat) (m : Buf)
    (h : string_mid buf l r = some m) : ¬ ReprInv m := by
  rw [string_mid] at h
  by_cases hg : r > buf.len ∨ l > buf.len ∨ l > r
  · rw [if_pos hg] at h
    exact absurd h (by simp)
  · rw [if_neg hg] at h
    obtain rfl := Option.some.inj h
    rintro ⟨hinv1, -⟩
    simp only at hinv1
    omega


/-! ### The claims -/

/-- C2: for every buffer and every formatted text, if the text does not
fit in the remaining capacity - length bytes (in particular whenever
capacity = length and the text is non-empty), string_append returns 0 and
leaves the buffer completely unmodified — same length, same content
bytes; it never performs a partial write. -/
theorem stringslib_C2_append_overflow (buf : Buf) (text : List Nat)
    (hinv : buf.len ≤ buf.cap) (hover : text.length > buf.cap - buf.len) :
    string_append buf text = (buf, 0) := by
  simp only [string_append]
  by_cases hspc : buf.cap - buf.len = 0
  · rw [if_pos hspc]
  · rw [if_neg hspc, if_pos hover]

theorem stringslib_C2_append_overflow_witness :
    (Buf.mk 1 1 [97, 0]).len ≤ (Buf.mk 1 1 [97, 0]).cap ∧
    ([98] : List Nat).length > (Buf.mk 1 1 [97, 0]).cap - (Buf.mk 1 1 [97, 0]).len ∧
    string_append (Buf.mk 1 1 [97, 0]) [98] = (Buf.mk 1 1 [97, 0], 0) :=
  ⟨by decide, by decide,
   stringslib_C2_append_overflow (Buf.mk 1 1 [97, 0]) [98] (by decide) (by decide)⟩

/-- C3: string_left fails iff pos > length and otherwise returns exactly
the bytes of the data region at offsets 0..pos (result length pos+1);
string_right fails iff pos > length and otherwise returns the content
from offset pos to the end (result length length - pos); in particular
Left("es un test", 4) = "es un". -/
theorem stringslib_C3_left_right (buf : Buf) (pos : Nat) (h : WF buf) :
    (string_left buf pos = none ↔ pos > buf.len) ∧
    (∀ r, string_left buf pos = some r →
      r.len = pos + 1 ∧ content r = buf.data.take (pos + 1)) ∧
    (string_right buf pos = none ↔ pos > buf.len) ∧
    (∀ r, string_right buf pos = some r →
      r.len = buf.len - pos ∧ content r = (content buf).drop pos) ∧
    (string_left esUnTest 4).map content = some [101, 115, 32, 117, 110] := by
  refine ⟨left_none_iff buf pos, ?_, right_none_iff buf pos, ?_, by decide⟩
  · intro r hr
    have hp : pos ≤ buf.len := by
      by_contra hgt
      push_neg at hgt
      rw [(left_none_iff buf pos).mpr hgt] at hr
      exact absurd hr (by simp)
    have hc := left_content buf pos h hp
    rw [left_eq buf pos h hp] at hc hr
    obtain rfl := Option.some.inj hr
    simp only [Option.map_some', Option.some.injEq] at hc
    exact ⟨rfl, hc⟩
  · intro r hr
    have hp : pos ≤ buf.len := by
      by_contra hgt
      push_neg at hgt
      rw [(right_none_iff buf pos).mpr hgt] at hr
      exact absurd hr (by simp)
    have hc := right_content buf pos h hp
    rw [right_eq buf pos h hp] at hc hr
    obtain rfl := Option.some.inj hr
    simp only [Option.map_some', Option.some.injEq] at hc
    exact ⟨rfl, hc⟩

theorem stringslib_C3_left_right_witness :
    WF esUnTest ∧
    (string_left esUnTest 4).map content = some [101, 115, 32, 117, 110] :=
  ⟨by decide, (stringslib_C3_left_right esUnTest 4 (by decide)).2.2.2.2⟩

/-- C4 counterexample: Mid("ab", 1, 1).  Both bounds are within the
length and left ≤ right, so the claim demands the inclusive byte range
[1, 1] of the content, i.e. [98] ("b"); the code returns [97] ("a"). -/
theorem stringslib_C4_counterexample :
    ((content bufAB).drop 1).take (1 - 1 + 1) = [98] ∧
    (string_mid bufAB 1 1).map content = some [97] := by decide

/-- C4 (amended): Mid fails iff left > right or either bound exceeds the
length; for 1 ≤ left the result is the 1-BASED inclusive range — the
bytes at offsets left-1 .. right-1 of the content, length right-left+1
(for left = 0 the guard passes but the code reads the byte before the
data region: undefined behavior).  Matches the test fixture
Mid("es un test", 4, 5) = "un". -/
theorem stringslib_C4_amended (buf : Buf) (l r : Nat) (h : WF buf) :
    (string_mid buf l r = none ↔ (r > buf.len ∨ l > buf.len ∨ l > r)) ∧
    (1 ≤ l → ∀ m, string_mid buf l r = some m →
      m.len = r - l + 1 ∧
      content m = ((content buf).drop (l - 1)).take (r - l + 1)) ∧
    (string_mid esUnTest 4 5).map content = some [117, 110] := by
  refine ⟨mid_none_iff buf l r, ?_, by decide⟩
  intro h1 m hm
  have hguard : ¬(r > buf.len ∨ l > buf.len ∨ l > r) := by
    intro hg
    rw [(mid_none_iff buf l r).mpr hg] at hm
    exact absurd hm (by simp)
  push_neg at hguard
  obtain ⟨hr, hl, hlr⟩ := hguard
  have hc := mid_content buf l r h h1 hlr hr
  rw [mid_eq buf l r h h1 hlr hr] at hc hm
  obtain rfl := Option.some.inj hm
  simp only [Option.map_some', Option.some.injEq] at hc
  exact ⟨rfl, hc⟩

theorem stringslib_C4_amended_witness :
    WF esUnTest ∧ (string_mid esUnTest 4 5).map content = some [117, 110] :=
  ⟨by decide, (stringslib_C4_amended esUnTest 4 5 (by decide)).2.2⟩

/-- C5 counterexample: Delete("abc", 1, 3).  No position exceeds the
length 3 and pos1 ≤ pos2, so the claim demands success with the content
minus the inclusive range [1, 3], i.e. [97] ("a"); the code returns a
buffer of length 0 (content []). -/
theorem stringslib_C5_counterexample :
    (content bufABC).take 1 ++ (content bufABC).drop 4 = [97] ∧
    (string_delete bufABC 1 3).map content = some [] := by decide

/-- C5 (amended): Delete fails iff pos1 > pos2 or either position exceeds
the length; for pos2 < length it returns the content with the inclusive
byte range [pos1, pos2] removed (length len - (pos2-pos1+1)); for
pos2 = length the stored length is one less than the remaining prefix
(wrapping to UINT32_MAX when pos1 = 0), not the range-removed content.
Matches the test fixture Delete("es un test", 3, 5) = "es test". -/
theorem stringslib_C5_amended (buf : Buf) (p1 p2 : Nat) (h : WF buf)
    (hcap : buf.len < U32MOD) :
    (string_delete buf p1 p2 = none ↔ (p1 > buf.len ∨ p2 > buf.len ∨ p1 > p2)) ∧
    (p2 < buf.len → ∀ d, string_delete buf p1 p2 = some d →
      d.len = buf.len - (p2 - p1 + 1) ∧
      content d = (content buf).take p1 ++ (content buf).drop (p2 + 1)) ∧
    (string_delete esUnTest 3 5).map content =
      some [101, 115, 32, 116, 101, 115, 116] := by
  refine ⟨delete_none_iff buf p1 p2, ?_, by decide⟩
  intro h2 d hd
  have h12 : p1 ≤ p2 := by
    by_contra hh
    push_neg at hh
    rw [(delete_none_iff buf p1 p2).mpr (by omega)] at hd
    exact absurd hd (by simp)
  have hc := delete_content buf p1 p2 h hcap h12 h2
  rw [delete_eq buf p1 p2 h hcap h12 h2] at hc hd
  obtain rfl := Option.some.inj hd
  simp only [Option.map_some', Option.some.injEq] at hc
  refine ⟨?_, hc⟩
  show buf.len - p2 + p1 - 1 = buf.len - (p2 - p1 + 1)
  omega

theorem stringslib_C5_amended_witness :
    WF esUnTest ∧ esUnTest.len < U32MOD ∧
    (string_delete esUnTest 3 5).map content =
      some [101, 115, 32, 116, 101, 115, 116] :=
  ⟨by decide, by decide,
   (stringslib_C5_amended esUnTest 3 5 (by decide) (by decide)).2.2⟩

/-- C7 (the code violates the claim): on empty or all-whitespace content
the pos2 scan of string_trim never finds a non-space byte; since its
`pos2 >= 0` guard is always true for the unsigned pos2, the scan wraps
past zero and reads buf->data[UINT32_MAX] — out of bounds, undefined
behavior (`none` in the model) — instead of producing an empty buffer. -/
theorem stringslib_C7_trim_whitespace_ub :
    string_trim 0 emptyBuf = none ∧ string_trim 0 spaceBuf = none := by decide

/-- C10: string_find with an empty needle (whose data region starts with
the terminator byte, as every well-formed empty buffer does) returns the
start position itself whenever pos ≤ length(buf). -/
theorem stringslib_C10_find_empty_needle (buf search : Buf) (pos : Nat)
    (hlen : search.len = 0) (hterm : search.data[0]? = some 0)
    (hpos : pos ≤ buf.len) :
    string_find buf search pos = pos := by
  rw [string_find, if_neg (by omega)]
  have hcs : cString search.data = [] := by
    cases hd : search.data with
    | nil => simp [cString]
    | cons a t =>
        rw [hd] at hterm
        obtain rfl : a = 0 := by simpa using hterm
        simp [cString]
  rw [hcs]
  have hss : ∀ hay : List Nat, strstrIdx [] hay = some 0 := by
    intro hay
    cases hay <;> simp [strstrIdx]
  rw [hss]
  rfl

theorem stringslib_C10_witness :
    emptyBuf.len = 0 ∧ emptyBuf.data[0]? = some 0 ∧ 3 ≤ esUnTest.len ∧
    string_find esUnTest emptyBuf 3 = 3 :=
  ⟨by decide, by decide, by decide,
   stringslib_C10_find_empty_needle esUnTest emptyBuf 3 (by decide) (by decide)
     (by decide)⟩

/-- C6 counterexample: the search treats both data regions as C strings,
stopping at the first NUL.  nulNeedle (content [0], produced by the
library itself as Left of an empty buffer at position 0) never occurs in
"ab", so the claim demands the sentinel; the code's strstr sees an empty
needle and returns offset 0. -/
theorem stringslib_C6_counterexample :
    string_find bufAB nulNeedle 0 = 0 ∧
    (∀ o, ¬ occursAt bufAB nulNeedle o) ∧
    string_left emptyBuf 0 = some nulNeedle := by
  refine ⟨by decide, ?_, by decide⟩
  intro o
  match o with
  | 0 => decide
  | 1 => decide
  | (n + 2) =>
      intro hx
      rw [occursAt, show content bufAB = [97, 98] from rfl,
        List.drop_eq_nil_of_le (by simp)] at hx
      exact absurd hx (by decide)

/-- C6 (amended): provided the contents of buf and needle are NUL-free
(the find compares the NUL-terminated C strings, not raw content) and the
capacity is below the sentinel value, Find returns the sentinel when the
needle is longer than buf or fromPos > length; otherwise it returns the
sentinel iff the needle's full content occurs at no offset ≥ fromPos, and
a non-sentinel result is the smallest offset ≥ fromPos at which the
needle's full content occurs. -/
theorem stringslib_C6_amended (buf search : Buf) (pos : Nat)
    (hb : WF buf) (hs : WF search) (hnb : NulFree buf) (hns : NulFree search)
    (hcap : buf.cap < STR_ERROR) :
    ((search.len > buf.len ∨ pos > buf.len) →
      string_find buf search pos = STR_ERROR) ∧
    (search.len ≤ buf.len → pos ≤ buf.len →
      ((string_find buf search pos = STR_ERROR ↔
          ∀ o, pos ≤ o → ¬ occursAt buf search o) ∧
       (string_find buf search pos ≠ STR_ERROR →
          pos ≤ string_find buf search pos ∧
          occursAt buf search (string_find buf search pos) ∧
          ∀ o, pos ≤ o → o < string_find buf search pos →
            ¬ occursAt buf search o))) := by
  constructor
  · intro hg
    rw [string_find, if_pos hg]
  · intro hsl hpl
    rcases find_spec buf search pos hb hs hnb hns hsl hpl with
      ⟨hf, hno⟩ | ⟨hge, hle, hocc, hmin⟩
    · refine ⟨⟨fun _ => hno, fun _ => hf⟩, fun hne => absurd hf hne⟩
    · have hne : string_find buf search pos ≠ STR_ERROR := by
        have h1 := hb.1
        have hse : STR_ERROR = 4294967295 := rfl
        omega
      refine ⟨⟨fun he => absurd he hne, fun hall => absurd hocc (hall _ hge)⟩, ?_⟩
      exact fun _ => ⟨hge, hocc, hmin⟩

theorem stringslib_C6_amended_witness :
    WF esUnTest ∧ WF unBuf ∧ NulFree esUnTest ∧ NulFree unBuf ∧
    esUnTest.cap < STR_ERROR ∧
    (0 ≤ string_find esUnTest unBuf 0 ∧
      occursAt esUnTest unBuf (string_find esUnTest unBuf 0) ∧
      ∀ o, 0 ≤ o → o < string_find esUnTest unBuf 0 →
        ¬ occursAt esUnTest unBuf o) :=
  ⟨by decide, by decide, by decide, by decide, by decide,
   ((stringslib_C6_amended esUnTest unBuf 0 (by decide) (by decide) (by decide)
       (by decide) (by decide)).2 (by decide) (by decide)).2 (by decide)⟩

/-- C8: Trim is idempotent on every input on which it is defined: if
string_trim buf yields a buffer t, trimming t again succeeds and yields
the same content. -/
theorem stringslib_C8_trim_idempotent (junk : Nat) (buf t : Buf) (h : WF buf)
    (ht : string_trim junk buf = some t) :
    (string_trim junk t).map content = some (content t) := by
  cases h2 : rtrimPos buf with
  | none =>
      rw [string_trim, h2] at ht
      exact absurd ht (by simp)
  | some p2 =>
      rw [trim_eq junk buf p2 h2] at ht
      obtain rfl := Option.some.inj ht
      obtain ⟨hp2len, hns2⟩ := rtrimPos_some buf p2 h2
      have hle : ltrimPos buf ≤ p2 := ltrimPos_le buf p2 h2
      have hns1 : isspace (buf.data.getD (ltrimPos buf) 0) = false :=
        ltrimPos_not_space buf h (by omega)
      set p1 := ltrimPos buf with hp1def
      set A := readBytes buf.data p1 (p2 - p1 + 1) with hAdef
      set R := List.replicate (p1 + p2 + 1 - (p2 - p1 + 1)) junk with hRdef
      set T : Buf := ⟨p1 + p2 + 1, p2 - p1 + 1, A ++ R ++ [0]⟩ with hTdef
      have hAlen : A.length = p2 - p1 + 1 := readBytes_length _ _ _
      have hAcons : A = buf.data.getD p1 0 ::
          readBytes buf.data (p1 + 1) (p2 - p1) := readBytes_succ _ _ _
      have hTtake : T.data.take T.len = A := by
        show (A ++ R ++ [0]).take (p2 - p1 + 1) = A
        rw [List.append_assoc]
        exact List.take_left' hAlen
      have hl0 : ltrimPos T = 0 := by
        show ((T.data.take T.len).takeWhile (fun c => isspace c)).length = 0
        rw [hTtake, hAcons, List.takeWhile_cons_of_neg (by simpa using hns1)]
        rfl
      have hr0 : rtrimPos T = some (p2 - p1) := by
        show (List.range T.len).reverse.find?
          (fun i => !(isspace (T.data.getD i 0))) = some (p2 - p1)
        have hTlen : T.len = (p2 - p1) + 1 := rfl
        rw [hTlen, List.range_succ, List.reverse_append]
        have hgetD : T.data.getD (p2 - p1) 0 = buf.data.getD p2 0 := by
          show (A ++ R ++ [0]).getD (p2 - p1) 0 = buf.data.getD p2 0
          rw [getD_append_left _ _ _ (by simp [hAlen]; omega),
            getD_append_left _ _ _ (by omega),
            readBytes_getD _ _ _ _ (by omega),
            show p1 + (p2 - p1) = p2 by omega]
        simp only [List.reverse_singleton, List.singleton_append]
        rw [List.find?_cons_of_pos _ ?_]
        show (!(isspace (T.data.getD (p2 - p1) 0))) = true
        rw [hgetD, hns2]
        rfl
      have hfinal := trim_content junk T (p2 - p1) hr0
      rw [hl0] at hfinal
      rw [hfinal]
      have hCT : content T = A := hTtake
      rw [hCT]
      congr 1
      rw [readBytes_eq _ _ _ (by simp [hAlen, hRdef]), List.drop_zero,
        show p2 - p1 - 0 + 1 = p2 - p1 + 1 by omega]
      have hTlen2 : T.len = p2 - p1 + 1 := rfl
      rw [← hTlen2]
      exact hTtake

theorem stringslib_C8_trim_idempotent_witness :
    WF spacedA ∧ string_trim 7 spacedA = some ⟨3, 1, [97, 7, 7, 0]⟩ ∧
    (string_trim 7 (⟨3, 1, [97, 7, 7, 0]⟩ : Buf)).map content =
      some (content ⟨3, 1, [97, 7, 7, 0]⟩) :=
  ⟨by decide, by decide,
   stringslib_C8_trim_idempotent 7 spacedA _ (by decide) (by decide)⟩

/-- C9 counterexample: Split("-a", "-").  The separator occurs in the
content (its first byte), so the claim demands success; the code passes
pos - 1 = UINT32_MAX to string_left and returns NULL for the left part. -/
theorem stringslib_C9_counterexample :
    (string_split dashA [45]).1 = none ∧ (content dashA).take 1 = [45] := by
  decide

/-- C9 (amended): Split fails when the separator does not occur, and also
returns an invalid (NULL) left result when the first occurrence is at
offset 0 (the left position underflows to UINT32_MAX); when the first
occurrence is at an offset p ≥ 1 it returns the content before p as the
left result and stores the content from p + length(separator) to the end
through the right out-parameter. -/
theorem stringslib_C9_amended (buf : Buf) (sep : List Nat)
    (hb : WF buf) (hnb : NulFree buf) (hsep : ∀ x ∈ sep, x ≠ 0)
    (hslen : sep.length ≤ U32MOD - 2) (hcap : buf.cap < U32MOD - 1) :
    (string_find_c buf sep 0 = STR_ERROR → string_split buf sep = (none, none)) ∧
    (string_find_c buf sep 0 = 0 → (string_split buf sep).1 = none) ∧
    (1 ≤ string_find_c buf sep 0 → string_find_c buf sep 0 ≠ STR_ERROR →
      (string_split buf sep).1.map content =
        some ((content buf).take (string_find_c buf sep 0)) ∧
      (string_split buf sep).2.map content =
        some ((content buf).drop (string_find_c buf sep 0 + sep.length))) := by
  have hu : U32MOD = 4294967296 := rfl
  have hserr : STR_ERROR = 4294967295 := rfl
  refine ⟨?_, ?_, ?_⟩
  · intro hsent
    simp only [string_split]
    rw [if_pos hsent]
  · intro h0
    simp only [string_split]
    rw [if_neg (by rw [h0]; decide)]
    simp only
    rw [h0, show (0 + (U32MOD - 1)) % U32MOD = STR_ERROR from by decide]
    exact (left_none_iff buf STR_ERROR).mpr (by have := hb.1; omega)
  · intro hp1 hne
    have hse_def : string_new_c sep = some ⟨sep.length, sep.length, sep ++ [0]⟩ := by
      rw [string_new_c, if_neg (by omega)]
    have hp_eq : string_find_c buf sep 0 =
        string_find buf ⟨sep.length, sep.length, sep ++ [0]⟩ 0 := by
      rw [string_find_c, if_neg (by omega), hse_def]
    have hwse : WF ⟨sep.length, sep.length, sep ++ [0]⟩ := wf_new_c sep _ hse_def
    have hcontent_se : content ⟨sep.length, sep.length, sep ++ [0]⟩ = sep := by
      rw [content_mk]
      exact List.take_left' rfl
    have hnfse : NulFree ⟨sep.length, sep.length, sep ++ [0]⟩ := by
      intro x hx
      rw [hcontent_se] at hx
      exact hsep x hx
    have hsl : sep.length ≤ buf.len := by
      by_contra hh
      push_neg at hh
      exact hne (by rw [hp_eq, string_find, if_pos (Or.inl hh)])
    rcases find_spec buf ⟨sep.length, sep.length, sep ++ [0]⟩ 0 hb hwse hnb hnfse
        hsl (Nat.zero_le _) with ⟨hf, -⟩ | ⟨-, hle, hocc, -⟩
    · exact absurd (hp_eq.trans hf) hne
    · rw [← hp_eq] at hle hocc
      have hfit : string_find_c buf sep 0 + sep.length ≤ buf.len := by
        have hlenocc := congrArg List.length hocc
        rw [hcontent_se] at hlenocc
        simp only [List.length_take, List.length_drop,
          content_length buf hb] at hlenocc
        omega
      have hcap2 : buf.cap < 4294967295 := by omega
      have hmod : (string_find_c buf sep 0 + (U32MOD - 1)) % U32MOD =
          string_find_c buf sep 0 - 1 := by
        have h1 := hb.1
        rw [hu]
        omega
      simp only [string_split]
      rw [if_neg hne]
      simp only
      constructor
      · rw [hmod]
        have hlc := left_content buf (string_find_c buf sep 0 - 1) hb (by omega)
        rw [show string_find_c buf sep 0 - 1 + 1 = string_find_c buf sep 0 by omega]
          at hlc
        have hctake : (content buf).take (string_find_c buf sep 0) =
            buf.data.take (string_find_c buf sep 0) := by
          rw [content, List.take_take, Nat.min_def, if_pos (by omega)]
        rw [hlc, hctake]
      · exact right_content buf _ hb hfit

theorem stringslib_C9_amended_witness :
    WF aDashB ∧ NulFree aDashB ∧
    (1 ≤ string_find_c aDashB [45] 0 ∧ string_find_c aDashB [45] 0 ≠ STR_ERROR) ∧
    ((string_split aDashB [45]).1.map content =
        some ((content aDashB).take (string_find_c aDashB [45] 0)) ∧
      (string_split aDashB [45]).2.map content =
        some ((content aDashB).drop (string_find_c aDashB [45] 0 + 1))) :=
  ⟨by decide, by decide, ⟨by decide, by decide⟩,
   (stringslib_C9_amended aDashB [45] (by decide) (by decide) (by decide)
     (by decide) (by decide)).2.2 (by decide) (by decide)⟩

/-- C1 counterexample: Mid("ab", 1, 2) succeeds but the produced buffer
has length 2 and capacity 1 (length > capacity), and index `length` lies
outside its 2-byte data region, so the terminator invariant fails too:
the claim's representation invariants do not hold for Mid results. -/
theorem stringslib_C1_counterexample :
    string_mid bufAB 1 2 = some ⟨1, 2, [97, 98]⟩ ∧
    ¬ ReprInv ⟨1, 2, [97, 98]⟩ := by decide

/-- C1 (amended): creation (string_new, string_new_c), Resize, Append,
Write, Reset, Left, Right, Concat and Insert establish or preserve both
representation invariants (together with the allocation-size property,
given well-formed inputs); Delete does so when pos2 < length; Trim does
so when the first content byte is not whitespace (otherwise the byte at
index `length` of its result is uninitialized junk); Mid's results always
violate both invariants (their length is capacity + 1 and the terminator
index lies outside the data region). -/
theorem stringslib_C1_amended (junk : Nat) (buf str : Buf)
    (hb : WF buf) (hs : WF str) (hcap : buf.len < U32MOD) :
    (∀ cap, WF (string_new junk cap)) ∧
    (∀ s b, string_new_c s = some b → WF b) ∧
    (∀ newcap, WF (string_resize junk buf newcap)) ∧
    (∀ text, WF (string_append buf text).1) ∧
    (∀ text, WF (string_write buf text).1) ∧
    WF (string_reset buf) ∧
    (∀ pos b, string_left buf pos = some b → WF b) ∧
    (∀ pos b, string_right buf pos = some b → WF b) ∧
    WF (string_concat buf str) ∧
    (∀ pos b, string_insert buf str pos = some b → WF b) ∧
    (∀ p1 p2 b, p2 < buf.len → string_delete buf p1 p2 = some b → WF b) ∧
    (isspace (buf.data.getD 0 0) = false →
      ∀ b, string_trim junk buf = some b → WF b) ∧
    (∀ l r m, string_mid buf l r = some m → ¬ ReprInv m) :=
  ⟨fun cap => wf_new junk cap,
   fun s b h => wf_new_c s b h,
   fun newcap => wf_resize junk buf newcap hb,
   fun text => wf_append buf text hb,
   fun text => wf_write buf text hb,
   wf_reset buf hb,
   fun pos b h => wf_left buf pos b hb h,
   fun pos b h => wf_right buf pos b hb h,
   wf_concat buf str hs,
   fun pos b h => wf_insert buf str pos b hb h,
   fun p1 p2 b h2 h => wf_delete buf p1 p2 b hb hcap h2 h,
   fun hhead b h => wf_trim junk buf hb hhead b h,
   fun l r m h => mid_not_repr buf l r m h⟩

theorem stringslib_C1_amended_witness :
    WF esUnTest ∧ WF bufAB ∧ esUnTest.len < U32MOD ∧
    WF (string_new 7 5) ∧ WF (string_concat esUnTest bufAB) :=
  ⟨by decide, by decide, by decide,
   (stringslib_C1_amended 7 esUnTest bufAB (by decide) (by decide) (by decide)).1 5,
   (stringslib_C1_amended 7 esUnTest bufAB (by decide) (by decide)
     (by decide)).2.2.2.2.2.2.2.2.1⟩

end Stringslib
